import Mathlib

/-!
Verification of the trivia game session engine of play-hiv-wise
(src/pages/Game.tsx and the shared data module): question bank, selector,
session state machine, scoring policy and leaderboard store.

The embedding is shallow: each TypeScript function of the engine becomes a
Lean definition over explicit state; randomness (`Math.random`) becomes an
explicit stream `rand : Nat → Nat` of the drawn indices; the browser's
`localStorage` becomes an explicit value passed in and out.
-/

namespace PlayHivWise

/-- `type Difficulty = "easy" | "medium" | "hard"` from the data module. -/
inductive Difficulty where
  | easy
  | medium
  | hard
  deriving DecidableEq

/-- The `Question` record of the data module. `category` is kept as a plain
string (`type Category` is a union of three string literals). -/
structure Question where
  id : String
  category : String
  difficulty : Difficulty
  text : String
  options : List String
  answerIndex : Nat
  explanation : Option String := none
  deriving DecidableEq

/-- `DIFFICULTY_POINTS: Record<Difficulty, number> = { easy: 10, medium: 20, hard: 30 }`. -/
def DIFFICULTY_POINTS : Difficulty → Nat
  | .easy => 10
  | .medium => 20
  | .hard => 30

/-- The static question bank `QUESTIONS` of the data module. -/
def QUESTIONS : List Question := [
  { id := "hivst-e-1", category := "HIV Self-Testing", difficulty := .easy,
    text := "What does HIV self-testing allow you to do?",
    options := ["Test yourself for HIV in private", "Cure HIV at home",
                "Donate blood at home", "Vaccinate against HIV"],
    answerIndex := 0,
    explanation := some "HIV self-testing lets you test yourself discretely and privately." },
  { id := "hivst-m-1", category := "HIV Self-Testing", difficulty := .medium,
    text := "After a reactive (positive) self-test, what should you do next?",
    options := ["Start medication immediately without consultation",
                "Confirm with a facility-based test and seek care",
                "Ignore it if you feel healthy", "Repeat the self-test every hour"],
    answerIndex := 1,
    explanation := some "A reactive self-test should be confirmed at a clinic or lab before starting care." },
  { id := "hivst-h-1", category := "HIV Self-Testing", difficulty := .hard,
    text := "Which window period best describes oral-fluid HIV self-tests?",
    options := ["1–2 days", "About 3 months", "1 year", "There is no window period"],
    answerIndex := 1,
    explanation := some "Oral tests can take up to 3 months to detect antibodies after exposure." },
  { id := "prep-e-1", category := "PrEP", difficulty := .easy,
    text := "What is PrEP primarily used for?",
    options := ["Preventing HIV", "Treating flu", "Lowering blood pressure", "Curing HIV"],
    answerIndex := 0,
    explanation := some "Pre-Exposure Prophylaxis (PrEP) greatly reduces the risk of getting HIV." },
  { id := "prep-m-1", category := "PrEP", difficulty := .medium,
    text := "To be most effective, PrEP should be taken...",
    options := ["Only when you remember", "As prescribed, consistently",
                "Once per month", "Only after sex"],
    answerIndex := 1,
    explanation := some "Consistency matters. Daily oral PrEP or per-event per provider guidance." },
  { id := "prep-h-1", category := "PrEP", difficulty := .hard,
    text := "Which option is a long-acting form of PrEP available in some settings?",
    options := ["Cabotegravir injection", "Vitamin C infusion", "Herbal syrup",
                "Penicillin injection"],
    answerIndex := 0,
    explanation := some "Long-acting cabotegravir injections are an approved PrEP option in some countries." },
  { id := "rh-e-1", category := "Reproductive Health", difficulty := .easy,
    text := "Which is a modern contraceptive method?",
    options := ["Condoms", "Garlic", "Cold showers", "Skipping meals"],
    answerIndex := 0,
    explanation := some "Condoms are a modern method and also help prevent STIs including HIV." },
  { id := "rh-m-1", category := "Reproductive Health", difficulty := .medium,
    text := "Which symptom warrants STI testing?",
    options := ["Unusual discharge", "Hiccups", "Dry skin", "Sneezing"],
    answerIndex := 0,
    explanation := some "Unusual discharge can signal an STI. Testing and treatment are important." },
  { id := "rh-h-1", category := "Reproductive Health", difficulty := .hard,
    text := "Emergency contraception is most effective when taken within...",
    options := ["120 hours", "2 weeks", "1 month", "It has no time limit"],
    answerIndex := 0,
    explanation := some "Most effective within 120 hours (5 days), earlier is better." }]

/-- The destructuring swap `[a[i], a[j]] = [a[j], a[i]]` of the shuffle loop.
Identity when an index is out of range (in the source both indices always are
in range: `i ≤ a.length - 1` and `j ≤ i`). -/
def swapAt {α : Type} (l : List α) (i j : Nat) : List α :=
  match l[i]?, l[j]? with
  | some x, some y => (l.set i y).set j x
  | some _, none => l
  | none, _ => l

/-- The loop of `shuffle`: `for (let i = a.length - 1; i > 0; i--)` swapping
position `i` with position `rand i`, where
`rand i = Math.floor(Math.random() * (i + 1))` is the random draw for `i`. -/
def shuffleGo {α : Type} (rand : Nat → Nat) : Nat → List α → List α
  | 0, a => a
  | i + 1, a => shuffleGo rand i (swapAt a (i + 1) (rand (i + 1)))

/-- `shuffle<T>(arr: T[])` (Fisher–Yates), with the stream of random draws
made an explicit argument. -/
def shuffle {α : Type} (l : List α) (rand : Nat → Nat) : List α :=
  shuffleGo rand (l.length - 1) l

/-- The Question Selector (spec §4.1): the `filtered` memo of Game.tsx
`shuffle(QUESTIONS.filter(q => q.difficulty === difficulty)).slice(0, 10)`
with the pool and the batch size as parameters, as in the contract
`select(pool, difficulty, batchSize)`. -/
def select (pool : List Question) (d : Difficulty) (n : Nat) (rand : Nat → Nat) :
    List Question :=
  (shuffle (pool.filter (fun q => decide (q.difficulty = d))) rand).take n

/-- The `filtered` memo of Game.tsx is the Selector at the static bank and
batch size 10. -/
def filtered (d : Difficulty) (rand : Nat → Nat) : List Question :=
  select QUESTIONS d 10 rand

/-! ### Permutation lemmas for the shuffle -/

/-- Moving the element at position `j` of `t` to the front while writing `x`
at `j` permutes `x :: t`. -/
theorem perm_cons_set {α : Type} :
    ∀ (t : List α) (j : Nat) (x y : α), t[j]? = some y →
      List.Perm (y :: t.set j x) (x :: t)
  | a :: s, 0, x, y, h => by
      simp only [List.getElem?_cons_zero, Option.some.injEq] at h
      subst h
      simpa [List.set] using List.Perm.swap x a s
  | a :: s, j + 1, x, y, h => by
      simp only [List.getElem?_cons_succ] at h
      have ih := perm_cons_set s j x y h
      have h1 : List.Perm (y :: a :: s.set j x) (a :: y :: s.set j x) :=
        List.Perm.swap a y _
      have h2 : List.Perm (a :: y :: s.set j x) (a :: x :: s) := ih.cons a
      have h3 : List.Perm (a :: x :: s) (x :: a :: s) := List.Perm.swap x a s
      simpa [List.set] using (h1.trans h2).trans h3

/-- Writing the element of position `j` at position `i` and vice versa
permutes the list. -/
theorem set_set_perm {α : Type} :
    ∀ (l : List α) (i j : Nat) (x y : α),
      l[i]? = some x → l[j]? = some y →
      List.Perm ((l.set i y).set j x) l
  | a :: t, 0, 0, x, y, hi, hj => by
      simp only [List.getElem?_cons_zero, Option.some.injEq] at hi hj
      subst hi; subst hj
      simp [List.set]
  | a :: t, 0, j + 1, x, y, hi, hj => by
      simp only [List.getElem?_cons_zero, List.getElem?_cons_succ,
        Option.some.injEq] at hi hj
      subst hi
      simpa [List.set] using perm_cons_set t j a y hj
  | a :: t, i + 1, 0, x, y, hi, hj => by
      simp only [List.getElem?_cons_zero, List.getElem?_cons_succ,
        Option.some.injEq] at hi hj
      subst hj
      simpa [List.set] using perm_cons_set t i a x hi
  | a :: t, i + 1, j + 1, x, y, hi, hj => by
      simp only [List.getElem?_cons_succ] at hi hj
      simpa [List.set] using (set_set_perm t i j x y hi hj).cons a

/-- Each iteration of the shuffle loop permutes the list. -/
theorem swapAt_perm {α : Type} (l : List α) (i j : Nat) :
    List.Perm (swapAt l i j) l := by
  rcases h1 : l[i]? with _ | x
  · simp [swapAt, h1]
  · rcases h2 : l[j]? with _ | y
    · simp [swapAt, h1, h2]
    · simpa [swapAt, h1, h2] using set_set_perm l i j x y h1 h2

theorem shuffleGo_perm {α : Type} (rand : Nat → Nat) :
    ∀ (n : Nat) (l : List α), List.Perm (shuffleGo rand n l) l
  | 0, l => by simp [shuffleGo]
  | n + 1, l => by
      simpa [shuffleGo] using
        (shuffleGo_perm rand n (swapAt l (n + 1) (rand (n + 1)))).trans
          (swapAt_perm l (n + 1) (rand (n + 1)))

/-- The shuffled list is a permutation of the input, for every stream of
random draws. -/
theorem shuffle_perm {α : Type} (l : List α) (rand : Nat → Nat) :
    List.Perm (shuffle l rand) l :=
  shuffleGo_perm rand (l.length - 1) l

/-- C6: the shuffle operation (Fisher–Yates, iterating `i` from the last
index down to 1 and swapping element `i` with element `rand i`) returns a
permutation of its input: for every input and every stream of random draws
the output is a permutation, and the multiset of question ids of the output
equals the multiset of question ids of the input. -/
theorem shuffle_perm_spec (l : List Question) (rand : Nat → Nat) :
    List.Perm (shuffle l rand) l ∧
    List.Perm ((shuffle l rand).map Question.id) (l.map Question.id) ∧
    (((shuffle l rand).map Question.id : List String) : Multiset String)
      = ((l.map Question.id : List String) : Multiset String) :=
  ⟨shuffle_perm l rand, (shuffle_perm l rand).map Question.id,
    Multiset.coe_eq_coe.mpr ((shuffle_perm l rand).map Question.id)⟩

/-- C5: `select(pool, d, n)` returns only questions of difficulty `d`; it
has no duplicate id when the pool has none; and its length is
`min n (number of questions of the pool matching d)` — a filtered pool
smaller than `n` simply yields a shorter batch. -/
theorem select_spec (pool : List Question) (d : Difficulty) (n : Nat)
    (rand : Nat → Nat) :
    (∀ q ∈ select pool d n rand, q.difficulty = d) ∧
    ((pool.map Question.id).Nodup →
      ((select pool d n rand).map Question.id).Nodup) ∧
    (select pool d n rand).length
      = min n (pool.filter (fun q => decide (q.difficulty = d))).length := by
  refine ⟨?_, ?_, ?_⟩
  · intro q hq
    have h1 : q ∈ shuffle (pool.filter (fun q => decide (q.difficulty = d))) rand :=
      (List.take_sublist n _).mem hq
    have h2 : q ∈ pool.filter (fun q => decide (q.difficulty = d)) :=
      (shuffle_perm _ rand).mem_iff.mp h1
    exact of_decide_eq_true (List.mem_filter.mp h2).2
  · intro hnd
    have hf : ((pool.filter (fun q => decide (q.difficulty = d))).map Question.id).Nodup :=
      hnd.sublist ((List.filter_sublist pool).map Question.id)
    have hs : ((shuffle (pool.filter (fun q => decide (q.difficulty = d))) rand).map
        Question.id).Nodup :=
      ((shuffle_perm _ rand).map Question.id).symm.nodup hf
    exact hs.sublist ((List.take_sublist n _).map Question.id)
  · simp [select, List.length_take, (shuffle_perm _ rand).length_eq]

/-! ### Leaderboard store -/

/-- `interface ScoreEntry { name: string; score: number; date: string; }`. -/
structure ScoreEntry where
  name : String
  score : Nat
  date : String
  deriving DecidableEq

/-- The possible outcomes of `localStorage.getItem(LB_KEY)`: no value stored,
the read itself threw, or a raw string. -/
inductive StorageRead where
  | missing
  | failure
  | value (raw : String)
  deriving DecidableEq

/-- `readLeaderboard()`. `parse` models `JSON.parse`, with `none` for a
throw on malformed content; the `try/catch` turns a throw — of `getItem` or
of `JSON.parse` — into `[]`, and the `raw ?` test makes the missing value
(and the falsy empty string) yield `[]`. -/
def readLeaderboard (r : StorageRead)
    (parse : String → Option (List ScoreEntry)) : List ScoreEntry :=
  match r with
  | .missing => []
  | .failure => []
  | .value raw => if raw = "" then [] else (parse raw).getD []

/-- A persisted entry together with its object identity: `findIndex(e => e
=== entry)` compares JS references, which structural equality cannot see, so
each entry carries a distinct tag. -/
abbrev Tagged := Nat × ScoreEntry

/-- Tag a list of entries with identities `k, k+1, ...` (all existing
entries are distinct objects). -/
def tagFrom (k : Nat) : List ScoreEntry → List Tagged
  | [] => []
  | e :: l => (k, e) :: tagFrom (k + 1) l

/-- The order the comparator `(a, b) => b.score - a.score` sorts by:
`a` precedes `b` when `b.score ≤ a.score` (descending by score). -/
def lbLe (a b : Tagged) : Prop := b.2.score ≤ a.2.score

instance : DecidableRel lbLe := fun a b =>
  inferInstanceAs (Decidable (b.2.score ≤ a.2.score))

instance : IsTotal Tagged lbLe := ⟨fun a b => Nat.le_total b.2.score a.2.score⟩

instance : IsTrans Tagged lbLe := ⟨fun _ _ _ h1 h2 => Nat.le_trans h2 h1⟩

/-- `Array.prototype.findIndex`, with `none` for the not-found result `-1`
(the source turns `-1 + 1 = 0` into `null` via `newRank || null`). -/
def findIndexO {α : Type} (p : α → Bool) : List α → Option Nat
  | [] => none
  | a :: l => if p a then some 0 else (findIndexO p l).map (· + 1)

/-- `[...lb, entry].sort((a, b) => b.score - a.score)` on tagged entries:
the fresh entry gets the tag `lb.length`, which no existing entry carries.
JS `sort` is stable, as is `insertionSort`; a stable sort for a total
preorder is unique, so the model computes the same sequence. -/
def sortedBoard (lb : List ScoreEntry) (entry : ScoreEntry) : List Tagged :=
  List.insertionSort lbLe (tagFrom 0 lb ++ [(lb.length, entry)])

/-- The leaderboard update of `next` on tagged entries: the sorted board
`slice(0, 20)`, and `findIndex(e => e === entry) + 1` turned into the
optional rank (`newRank || null`). -/
def recordTagged (lb : List ScoreEntry) (entry : ScoreEntry) :
    List Tagged × Option Nat :=
  ((sortedBoard lb entry).take 20,
    match findIndexO (fun p => p.1 == lb.length) ((sortedBoard lb entry).take 20) with
    | some i => some (i + 1)
    | none => none)

/-- `record(entry)` (spec §4.4): the persisted sequence after the update and
the rank reported back, with the identity tags erased. -/
def record (lb : List ScoreEntry) (entry : ScoreEntry) :
    List ScoreEntry × Option Nat :=
  ((recordTagged lb entry).1.map Prod.snd, (recordTagged lb entry).2)

/-- `list(limit)`: the top `limit` entries in persisted order
(`list.slice(0, 10)` of `LeaderboardList`). -/
def listTop (lb : List ScoreEntry) (limit : Nat) : List ScoreEntry :=
  lb.take limit

/-! ### Lemmas about the tagged board -/

theorem tagFrom_length : ∀ (l : List ScoreEntry) (k : Nat),
    (tagFrom k l).length = l.length
  | [], _ => rfl
  | e :: l, k => by simp [tagFrom, tagFrom_length l (k + 1)]

theorem mem_tagFrom :
    ∀ (l : List ScoreEntry) (k : Nat) (p : Tagged), p ∈ tagFrom k l →
      k ≤ p.1 ∧ p.1 < k + l.length
  | [], _, _, h => by simp [tagFrom] at h
  | e :: l, k, p, h => by
      simp only [tagFrom, List.mem_cons] at h
      rcases h with rfl | h'
      · simp only [List.length_cons]
        omega
      · have ih := mem_tagFrom l (k + 1) p h'
        simp only [List.length_cons]
        omega

theorem tagFrom_fst_nodup : ∀ (l : List ScoreEntry) (k : Nat),
    ((tagFrom k l).map Prod.fst).Nodup
  | [], _ => by simp [tagFrom]
  | e :: l, k => by
      simp only [tagFrom, List.map_cons, List.nodup_cons]
      refine ⟨fun hk => ?_, tagFrom_fst_nodup l (k + 1)⟩
      rcases List.mem_map.mp hk with ⟨p, hp, hpk⟩
      have := mem_tagFrom l (k + 1) p hp
      omega

theorem appended_fst_nodup (lb : List ScoreEntry) (entry : ScoreEntry) :
    ((tagFrom 0 lb ++ [(lb.length, entry)]).map Prod.fst).Nodup := by
  rw [List.map_append]
  refine List.nodup_append.mpr ⟨tagFrom_fst_nodup lb 0, by simp, ?_⟩
  intro a ha hb
  rcases List.mem_map.mp ha with ⟨p, hp, rfl⟩
  simp only [List.map_cons, List.map_nil, List.mem_singleton] at hb
  have := mem_tagFrom lb 0 p hp
  omega

theorem sortedBoard_perm (lb : List ScoreEntry) (entry : ScoreEntry) :
    List.Perm (sortedBoard lb entry) (tagFrom 0 lb ++ [(lb.length, entry)]) :=
  List.perm_insertionSort lbLe _

theorem sortedBoard_sorted (lb : List ScoreEntry) (entry : ScoreEntry) :
    List.Sorted lbLe (sortedBoard lb entry) :=
  List.sorted_insertionSort lbLe _

theorem sortedBoard_length (lb : List ScoreEntry) (entry : ScoreEntry) :
    (sortedBoard lb entry).length = lb.length + 1 := by
  simpa [tagFrom_length] using (sortedBoard_perm lb entry).length_eq

theorem sortedBoard_fst_nodup (lb : List ScoreEntry) (entry : ScoreEntry) :
    ((sortedBoard lb entry).map Prod.fst).Nodup :=
  ((sortedBoard_perm lb entry).map Prod.fst).symm.nodup (appended_fst_nodup lb entry)

/-- The freshly inserted entry is the only element of the sorted board that
carries the fresh tag `lb.length`. -/
theorem mem_sortedBoard_fresh (lb : List ScoreEntry) (entry : ScoreEntry)
    (p : Tagged) (hp : p ∈ sortedBoard lb entry) (hfst : p.1 = lb.length) :
    p = (lb.length, entry) := by
  have hmem : p ∈ tagFrom 0 lb ++ [(lb.length, entry)] :=
    (sortedBoard_perm lb entry).mem_iff.mp hp
  rcases List.mem_append.mp hmem with h | h
  · have := mem_tagFrom lb 0 p h
    exfalso; omega
  · simpa using h

theorem fresh_mem_sortedBoard (lb : List ScoreEntry) (entry : ScoreEntry) :
    (lb.length, entry) ∈ sortedBoard lb entry :=
  (sortedBoard_perm lb entry).mem_iff.mpr (by simp)

/-! ### Lemmas about `findIndexO` -/

theorem findIndexO_eq_some {α : Type} (p : α → Bool) :
    ∀ (l : List α) (i : Nat), findIndexO p l = some i →
      ∃ a, l[i]? = some a ∧ p a = true
  | [], i, h => by simp [findIndexO] at h
  | a :: t, i, h => by
      by_cases hp : p a
      · simp only [findIndexO, hp, if_true, Option.some.injEq] at h
        exact ⟨a, by simp [← h], hp⟩
      · rw [Bool.not_eq_true] at hp
        simp only [findIndexO, hp, Bool.false_eq_true, if_false,
          Option.map_eq_some'] at h
        rcases h with ⟨j, hj, rfl⟩
        rcases findIndexO_eq_some p t j hj with ⟨b, hb, hpb⟩
        exact ⟨b, by simpa using hb, hpb⟩

theorem findIndexO_eq_none {α : Type} (p : α → Bool) :
    ∀ (l : List α), findIndexO p l = none ↔ ∀ a ∈ l, p a = false
  | [] => by simp [findIndexO]
  | a :: t => by
      by_cases hp : p a
      · simp [findIndexO, hp]
      · rw [Bool.not_eq_true] at hp
        simp only [findIndexO, hp, Bool.false_eq_true, if_false,
          Option.map_eq_none', findIndexO_eq_none p t, List.mem_cons]
        constructor
        · intro h b hb
          rcases hb with rfl | hb'
          · exact hp
          · exact h b hb'
        · intro h b hb
          exact h b (Or.inr hb)

/-- When the tags of the list are distinct, `findIndex` locates exactly the
position holding the looked-up tag. -/
theorem findIndexO_of_getElem? :
    ∀ (l : List Tagged) (t : Nat) (e : ScoreEntry) (i : Nat),
      (l.map Prod.fst).Nodup → l[i]? = some (t, e) →
      findIndexO (fun p => p.1 == t) l = some i
  | [], _, _, i, _, h => by simp at h
  | a :: rest, t, e, 0, hnd, h => by
      simp only [List.getElem?_cons_zero, Option.some.injEq] at h
      subst h
      simp [findIndexO]
  | a :: rest, t, e, i + 1, hnd, h => by
      simp only [List.getElem?_cons_succ] at h
      simp only [List.map_cons, List.nodup_cons] at hnd
      have hne : a.1 ≠ t := by
        intro heq
        exact hnd.1 (heq ▸ List.mem_map_of_mem Prod.fst (List.getElem?_mem h))
      have ih := findIndexO_of_getElem? rest t e i hnd.2 h
      simp [findIndexO, beq_iff_eq, hne, ih]

/-! ### Rank characterization -/

theorem recordTagged_fst_nodup (lb : List ScoreEntry) (entry : ScoreEntry) :
    ((recordTagged lb entry).1.map Prod.fst).Nodup :=
  (sortedBoard_fst_nodup lb entry).sublist
    ((List.take_sublist 20 (sortedBoard lb entry)).map Prod.fst)

theorem recordTagged_rank_some_iff (lb : List ScoreEntry) (entry : ScoreEntry)
    (i : Nat) :
    (recordTagged lb entry).2 = some (i + 1) ↔
      (recordTagged lb entry).1[i]? = some (lb.length, entry) := by
  constructor
  · intro h
    rcases hf : findIndexO (fun p => p.1 == lb.length)
        ((sortedBoard lb entry).take 20) with _ | j
    · simp [recordTagged, hf] at h
    · simp only [recordTagged, hf, Option.some.injEq] at h
      have hji : j = i := by omega
      subst hji
      rcases findIndexO_eq_some _ _ j hf with ⟨a, ha, hpa⟩
      have hfst : a.1 = lb.length := by simpa using hpa
      have hmemS : a ∈ sortedBoard lb entry :=
        (List.take_sublist 20 _).mem (List.getElem?_mem ha)
      have hae := mem_sortedBoard_fresh lb entry a hmemS hfst
      simpa [recordTagged, ← hae] using ha
  · intro h
    have h' : ((sortedBoard lb entry).take 20)[i]? = some (lb.length, entry) := by
      simpa [recordTagged] using h
    have hfi := findIndexO_of_getElem? ((sortedBoard lb entry).take 20)
      lb.length entry i
      (by simpa [recordTagged] using recordTagged_fst_nodup lb entry) h'
    simp [recordTagged, hfi]

theorem recordTagged_rank_none_iff (lb : List ScoreEntry) (entry : ScoreEntry) :
    (recordTagged lb entry).2 = none ↔
      (lb.length, entry) ∉ (recordTagged lb entry).1 := by
  constructor
  · intro h hmem
    rcases hf : findIndexO (fun p => p.1 == lb.length)
        ((sortedBoard lb entry).take 20) with _ | j
    · have hall := (findIndexO_eq_none _ _).mp hf (lb.length, entry)
        (by simpa [recordTagged] using hmem)
      simp at hall
    · simp [recordTagged, hf] at h
  · intro hnot
    rcases hf : findIndexO (fun p => p.1 == lb.length)
        ((sortedBoard lb entry).take 20) with _ | j
    · simp [recordTagged, hf]
    · exfalso
      rcases findIndexO_eq_some _ _ j hf with ⟨a, ha, hpa⟩
      have hfst : a.1 = lb.length := by simpa using hpa
      have ham : a ∈ (sortedBoard lb entry).take 20 := List.getElem?_mem ha
      have hae := mem_sortedBoard_fresh lb entry a
        ((List.take_sublist 20 _).mem ham) hfst
      exact hnot (by simpa [recordTagged, ← hae] using ham)

theorem recordTagged_rank_bound (lb : List ScoreEntry) (entry : ScoreEntry)
    (k : Nat) (h : (recordTagged lb entry).2 = some k) : 1 ≤ k ∧ k ≤ 20 := by
  rcases hf : findIndexO (fun p => p.1 == lb.length)
      ((sortedBoard lb entry).take 20) with _ | j
  · simp [recordTagged, hf] at h
  · simp only [recordTagged, hf, Option.some.injEq] at h
    rcases findIndexO_eq_some _ _ j hf with ⟨a, ha, _⟩
    have hj : j < ((sortedBoard lb entry).take 20).length :=
      (List.getElem?_eq_some.mp ha).1
    rw [List.length_take] at hj
    omega

theorem recordTagged_none_full (lb : List ScoreEntry) (entry : ScoreEntry)
    (h : (recordTagged lb entry).2 = none) :
    (recordTagged lb entry).1.length = 20 ∧
      ∀ p ∈ (recordTagged lb entry).1, entry.score ≤ p.2.score := by
  have hnot : (lb.length, entry) ∉ (sortedBoard lb entry).take 20 := by
    simpa [recordTagged] using (recordTagged_rank_none_iff lb entry).mp h
  have hlen : 20 < (sortedBoard lb entry).length := by
    by_contra hle
    push_neg at hle
    have hfm := fresh_mem_sortedBoard lb entry
    rw [← List.take_of_length_le hle] at hfm
    exact hnot hfm
  refine ⟨by simp only [recordTagged, List.length_take]; omega, ?_⟩
  intro p hp
  have hp' : p ∈ (sortedBoard lb entry).take 20 := by
    simpa [recordTagged] using hp
  rcases List.mem_iff_getElem.mp (fresh_mem_sortedBoard lb entry) with ⟨n, hn, hgn⟩
  have hn20 : 20 ≤ n := by
    by_contra hlt
    push_neg at hlt
    have htl : n < ((sortedBoard lb entry).take 20).length := by
      rw [List.length_take]; omega
    have : ((sortedBoard lb entry).take 20)[n] = (lb.length, entry) := by
      rw [List.getElem_take]; exact hgn
    exact hnot (this ▸ List.getElem_mem htl)
  rcases List.mem_iff_getElem.mp hp' with ⟨m, hm, hgm⟩
  have hm20 : m < 20 := by
    rw [List.length_take] at hm; omega
  have hms : m < (sortedBoard lb entry).length := by omega
  have hrel := List.pairwise_iff_getElem.mp (sortedBoard_sorted lb entry)
    m n hms hn (by omega)
  have hmp : (sortedBoard lb entry)[m] = p := by
    rw [← List.getElem_take (sortedBoard lb entry)]; exact hgm
  rw [hmp, hgn] at hrel
  exact hrel

/-- C3: after `record(entry)` the persisted sequence is sorted in
non-increasing order of score and has length at most 20, for every prior
persisted state (sorted or not) and every entry; listing the top 10 entries
afterwards therefore also yields non-increasing scores. -/
theorem record_sorted_spec (lb : List ScoreEntry) (entry : ScoreEntry) :
    List.Sorted (fun a b : ScoreEntry => b.score ≤ a.score) (record lb entry).1 ∧
    (record lb entry).1.length ≤ 20 ∧
    List.Sorted (fun a b : ScoreEntry => b.score ≤ a.score)
      (listTop (record lb entry).1 10) := by
  have hs : List.Sorted lbLe ((sortedBoard lb entry).take 20) :=
    List.Pairwise.sublist (List.take_sublist 20 _) (sortedBoard_sorted lb entry)
  have hmap : List.Sorted (fun a b : ScoreEntry => b.score ≤ a.score)
      (((sortedBoard lb entry).take 20).map Prod.snd) :=
    List.pairwise_map.mpr hs
  refine ⟨by simpa [record, recordTagged] using hmap, ?_, ?_⟩
  · simp only [record, recordTagged, List.length_map, List.length_take]
    omega
  · exact List.Pairwise.sublist (List.take_sublist 10 _)
      (by simpa [record, recordTagged] using hmap)

/-- C4: the rank returned by `record` is the 1-based index of the just
inserted entry (identified by its fresh tag, i.e. JS object identity) in
the post-truncation sequence when the entry survives truncation; it is
`none` — not 0 — exactly when the entry was truncated away, which can only
happen when the board is full at 20 entries that all score at least the new
entry's score; any returned rank lies between 1 and 20. -/
theorem record_rank_spec (lb : List ScoreEntry) (entry : ScoreEntry) :
    (∀ i, (recordTagged lb entry).2 = some (i + 1) ↔
      (recordTagged lb entry).1[i]? = some (lb.length, entry)) ∧
    ((recordTagged lb entry).2 = none ↔
      (lb.length, entry) ∉ (recordTagged lb entry).1) ∧
    ((recordTagged lb entry).2 = none →
      (recordTagged lb entry).1.length = 20 ∧
        ∀ p ∈ (recordTagged lb entry).1, entry.score ≤ p.2.score) ∧
    (∀ k, (recordTagged lb entry).2 = some k → 1 ≤ k ∧ k ≤ 20) :=
  ⟨fun i => recordTagged_rank_some_iff lb entry i,
    recordTagged_rank_none_iff lb entry,
    recordTagged_none_full lb entry,
    fun k => recordTagged_rank_bound lb entry k⟩

/-- C9: reading the leaderboard never throws past the store boundary —
missing storage, a failing read, and malformed (unparsable) content all
yield the empty list; the only non-empty outcome is successfully parsed
content. -/
theorem readLeaderboard_spec :
    (∀ parse, readLeaderboard .missing parse = []) ∧
    (∀ parse, readLeaderboard .failure parse = []) ∧
    (∀ raw parse, parse raw = none → readLeaderboard (.value raw) parse = []) ∧
    (∀ r parse, readLeaderboard r parse = [] ∨
      ∃ raw l, r = .value raw ∧ parse raw = some l ∧
        readLeaderboard r parse = l) := by
  refine ⟨fun _ => rfl, fun _ => rfl, ?_, ?_⟩
  · intro raw parse h
    by_cases he : raw = "" <;> simp [readLeaderboard, he, h]
  · intro r parse
    cases r with
    | missing => exact Or.inl rfl
    | failure => exact Or.inl rfl
    | value raw =>
        by_cases he : raw = ""
        · exact Or.inl (by simp [readLeaderboard, he])
        · cases hp : parse raw with
          | none => exact Or.inl (by simp [readLeaderboard, he, hp])
          | some l =>
              exact Or.inr ⟨raw, l, rfl, hp, by simp [readLeaderboard, he, hp]⟩

/-! ### Session state machine -/

/-- `useState<"setup" | "playing" | "result">("setup")`. -/
inductive Step where
  | setup
  | playing
  | result
  deriving DecidableEq

/-- The state of the `Game` component: its `useState` hooks plus the cached
value and dependency key of the `filtered` `useMemo` (whose dependency array
is `[difficulty]`). `soundOn` and sound effects are presentation-only and
carry no session state. -/
structure GameState where
  playerName : String
  difficulty : Difficulty
  step : Step
  currentIdx : Nat
  score : Nat
  selected : Option Nat
  questions : List Question
  rank : Option Nat
  memoKey : Difficulty
  memoFiltered : List Question
  deriving DecidableEq

/-- `handleOption(index)`: a no-op when an option is already selected;
otherwise records the selection and, when it matches the current question's
`answerIndex`, adds the difficulty's point value. The out-of-range branch
sets only the selection: it is unreachable through the UI, which renders
the option buttons only while `step === "playing" && current`. -/
def handleOption (s : GameState) (index : Nat) : GameState :=
  if s.selected.isSome then s
  else
    match s.questions[s.currentIdx]? with
    | some q =>
        if index = q.answerIndex then
          { s with selected := some index,
                   score := s.score + DIFFICULTY_POINTS s.difficulty }
        else { s with selected := some index }
    | none => { s with selected := some index }

/-- `handleStart()`: blocked with a toast (the returned flag) when the
trimmed player name is empty (`!playerName.trim()` — the empty string is
falsy); otherwise moves to the playing phase. -/
def handleStart (s : GameState) : GameState × Bool :=
  if s.playerName.trim = "" then (s, true)
  else ({ s with step := .playing }, false)

/-- `next()`: advances to the next question clearing the selection, or — on
the last question — records the final score on the leaderboard read as
`lb`, stores the returned rank and enters the result phase. `now` is the
`new Date().toISOString()` timestamp. -/
def next (s : GameState) (lb : List ScoreEntry) (now : String) :
    GameState × List ScoreEntry :=
  if s.currentIdx + 1 < s.questions.length then
    ({ s with currentIdx := s.currentIdx + 1, selected := none }, lb)
  else
    let r := record lb ⟨s.playerName.trim, s.score, now⟩
    ({ s with rank := r.2, step := .result }, r.1)

/-- One render settle: the `filtered` memo recomputes only when its
dependency `difficulty` differs from the cached key, and the effect on
`[filtered, step]` resets the session fields only while in the setup
phase. -/
def settle (s : GameState) (rand : Nat → Nat) : GameState :=
  let mf := if s.difficulty = s.memoKey then s.memoFiltered
            else select QUESTIONS s.difficulty 10 rand
  if s.step = .setup then
    { s with memoKey := s.difficulty, memoFiltered := mf, questions := mf,
             currentIdx := 0, score := 0, selected := none, rank := none }
  else { s with memoKey := s.difficulty, memoFiltered := mf }

/-- `restart()` (`Play again`): sets the phase back to setup; the following
render settles the memo and the setup effect. -/
def restart (s : GameState) (rand : Nat → Nat) : GameState :=
  settle { s with step := .setup } rand

/-- The component state after mount: initial hook values, the memo computed
once with the mount-time randomness, and the setup effect applied. -/
def initState (rand : Nat → Nat) : GameState :=
  settle
    { playerName := "", difficulty := .easy, step := .setup, currentIdx := 0,
      score := 0, selected := none, questions := [], rank := none,
      memoKey := .easy, memoFiltered := select QUESTIONS .easy 10 rand } rand

/-- The player actions available during play: `handleOption(i)` and
`next()` (the latter carrying the wall-clock timestamp it would record). -/
inductive Action where
  | submit (index : Nat)
  | advance (now : String)

/-- One action applied to the session and the persisted leaderboard. -/
def stepAction (s : GameState) (lb : List ScoreEntry) :
    Action → GameState × List ScoreEntry
  | .submit i => (handleOption s i, lb)
  | .advance now => next s lb now

/-- A session run: the actions applied in order. -/
def run (s : GameState) (lb : List ScoreEntry) :
    List Action → GameState × List ScoreEntry
  | [] => (s, lb)
  | a :: acts => run (stepAction s lb a).1 (stepAction s lb a).2 acts

/-- The number of questions whose first submitted option equals the
question's `answerIndex`, along a trace of actions starting at position
`idx` with current selection `sel`: exactly the submissions the engine
scores. -/
def scoredCount (qs : List Question) : Nat → Option Nat → List Action → Nat
  | _, _, [] => 0
  | idx, sel, .submit i :: acts =>
      if sel.isSome then scoredCount qs idx sel acts
      else
        (match qs[idx]? with
         | some q => if i = q.answerIndex then 1 else 0
         | none => 0) + scoredCount qs idx (some i) acts
  | idx, sel, .advance _ :: acts =>
      if idx + 1 < qs.length then scoredCount qs (idx + 1) none acts
      else scoredCount qs idx sel acts

/-- The session state at the start of play: the state reached by
`handleStart` from a settled setup whose drawn batch is `qs`. -/
def startingState (name : String) (d : Difficulty) (qs : List Question) :
    GameState :=
  { playerName := name, difficulty := d, step := .playing, currentIdx := 0,
    score := 0, selected := none, questions := qs, rank := none,
    memoKey := d, memoFiltered := qs }

/-! ### Scoring -/

theorem handleOption_score_le (s : GameState) (i : Nat) :
    s.score ≤ (handleOption s i).score := by
  by_cases h : s.selected.isSome
  · simp [handleOption, h]
  · cases hq : s.questions[s.currentIdx]? with
    | none => simp [handleOption, h, hq]
    | some q =>
        by_cases hi : i = q.answerIndex <;>
          simp [handleOption, h, hq, hi, Nat.le_add_right]

theorem next_score (s : GameState) (lb : List ScoreEntry) (now : String) :
    ((next s lb now).1).score = s.score := by
  unfold next
  split <;> rfl

/-- Master scoring identity: a run adds exactly the difficulty's point
value per question whose first submitted option was correct. -/
theorem run_score (acts : List Action) :
    ∀ (s : GameState) (lb : List ScoreEntry),
      ((run s lb acts).1).score
        = s.score + DIFFICULTY_POINTS s.difficulty *
            scoredCount s.questions s.currentIdx s.selected acts := by
  induction acts with
  | nil => intro s lb; simp [run, scoredCount]
  | cons a acts ih =>
      intro s lb
      have hrun : run s lb (a :: acts)
          = run (stepAction s lb a).1 (stepAction s lb a).2 acts := rfl
      cases a with
      | submit i =>
          by_cases hsel : s.selected.isSome
          · have hstate : handleOption s i = s := by simp [handleOption, hsel]
            rw [hrun]
            simp only [stepAction, hstate, ih]
            simp [scoredCount, hsel]
          · cases hq : s.questions[s.currentIdx]? with
            | none =>
                have hstate : handleOption s i = { s with selected := some i } := by
                  simp [handleOption, hsel, hq]
                rw [hrun]
                simp only [stepAction, hstate, ih]
                simp [scoredCount, hsel, hq]
            | some q =>
                by_cases hi : i = q.answerIndex
                · have hstate : handleOption s i = { s with selected := some i, score := s.score + DIFFICULTY_POINTS s.difficulty } := by
                    simp [handleOption, hsel, hq, hi]
                  rw [hrun]
                  simp only [stepAction, hstate, ih]
                  simp [scoredCount, hsel, hq, hi, Nat.mul_add]
                  ring
                · have hstate : handleOption s i = { s with selected := some i } := by
                    simp [handleOption, hsel, hq, hi]
                  rw [hrun]
                  simp only [stepAction, hstate, ih]
                  simp [scoredCount, hsel, hq, hi]
      | advance now =>
          by_cases hlt : s.currentIdx + 1 < s.questions.length
          · have hstate : next s lb now = ({ s with currentIdx := s.currentIdx + 1, selected := none }, lb) := by
              simp [next, hlt]
            rw [hrun]
            simp only [stepAction, hstate, ih]
            simp [scoredCount, hlt]
          · have hstate : next s lb now = ({ s with rank := (record lb ⟨s.playerName.trim, s.score, now⟩).2, step := .result }, (record lb ⟨s.playerName.trim, s.score, now⟩).1) := by
              simp [next, hlt]
            rw [hrun]
            simp only [stepAction, hstate, ih]
            simp [scoredCount, hlt]

/-- C2: across every sequence of `submitAnswer` and `advance` operations the
score is monotonically non-decreasing — each submission can only add, each
advance preserves it — and from the start of play the score always equals
the per-difficulty point value (easy 10, medium 20, hard 30) times the
number of questions whose first submitted option equalled the question's
`answerIndex`; incorrect answers add and subtract nothing. -/
theorem score_spec :
    (∀ (s : GameState) (i : Nat), s.score ≤ (handleOption s i).score) ∧
    (∀ (s : GameState) (lb : List ScoreEntry) (now : String),
      ((next s lb now).1).score = s.score) ∧
    (∀ (s : GameState) (lb : List ScoreEntry) (acts : List Action),
      s.score ≤ ((run s lb acts).1).score) ∧
    (∀ (name : String) (d : Difficulty) (qs : List Question)
        (lb : List ScoreEntry) (acts : List Action),
      ((run (startingState name d qs) lb acts).1).score
        = DIFFICULTY_POINTS d * scoredCount qs 0 none acts) := by
  refine ⟨handleOption_score_le, next_score, ?_, ?_⟩
  · intro s lb acts
    rw [run_score]
    exact Nat.le_add_right _ _
  · intro name d qs lb acts
    rw [run_score]
    simp [startingState]

/-! ### Idempotence of submission -/

theorem handleOption_already (s : GameState) (j : Nat)
    (h : s.selected.isSome = true) : handleOption s j = s := by
  simp [handleOption, h]

theorem handleOption_selected_isSome (s : GameState) (i : Nat) :
    (handleOption s i).selected.isSome = true := by
  by_cases h : s.selected.isSome
  · simp [handleOption, h]
  · cases hq : s.questions[s.currentIdx]? with
    | none => simp [handleOption, h, hq]
    | some q =>
        by_cases hi : i = q.answerIndex <;> simp [handleOption, h, hq, hi]

/-- C7: once an option is selected for the current question, any further
`submitAnswer` is a no-op on the whole session state; in particular any
second submission after a first one changes nothing. -/
theorem submit_idempotent_spec :
    (∀ (s : GameState) (j : Nat), s.selected.isSome = true →
      handleOption s j = s) ∧
    (∀ (s : GameState) (i j : Nat),
      handleOption (handleOption s i) j = handleOption s i) :=
  ⟨handleOption_already,
    fun s i j =>
      handleOption_already (handleOption s i) j (handleOption_selected_isSome s i)⟩

/-- C8: the Setup → Playing transition is guarded by a non-blank name —
with a name that trims to empty, `handleStart` raises the validation notice
(the `true` flag) and changes no state; with a non-blank name it moves the
phase to playing with no notice. -/
theorem handleStart_spec (s : GameState) :
    (s.playerName.trim = "" → handleStart s = (s, true)) ∧
    (s.playerName.trim ≠ "" →
      handleStart s = ({ s with step := .playing }, false)) := by
  constructor
  · intro h; simp [handleStart, h]
  · intro h; simp [handleStart, h]

/-! ### Restart -/

/-- C1 (amended): restart resets `currentIndex`, `score`, `selectedOption`
and `rank` to their initial values and re-enters setup, but the batch is
the memoized Selector output: the Selector re-runs only when the difficulty
differs from the memo key — with unchanged settings the previous batch is
reused unchanged. -/
theorem restart_spec (s : GameState) (rand : Nat → Nat) :
    (restart s rand).step = .setup ∧
    (restart s rand).currentIdx = 0 ∧
    (restart s rand).score = 0 ∧
    (restart s rand).selected = none ∧
    (restart s rand).rank = none ∧
    (restart s rand).questions
      = (if s.difficulty = s.memoKey then s.memoFiltered
         else select QUESTIONS s.difficulty 10 rand) := by
  simp [restart, settle]

def cexRand0 : Nat → Nat := fun _ => 0

def cexRand1 : Nat → Nat := fun _ => 1

/-- A completed easy session whose memoized batch was drawn with the
mount-time randomness `cexRand0`. -/
def cexState : GameState :=
  { playerName := "Ada", difficulty := .easy, step := .result, currentIdx := 2,
    score := 30, selected := some 0,
    questions := select QUESTIONS .easy 10 cexRand0, rank := some 1,
    memoKey := .easy, memoFiltered := select QUESTIONS .easy 10 cexRand0 }

/-- C1 counterexample: restarting a completed session with unchanged
difficulty reuses the memoized batch — the questions after restart are the
old memo value and differ from what a fresh Selector draw with the new
randomness would return, so no fresh batch is drawn. -/
theorem restart_reuses_batch_cex :
    cexState.step = .result ∧
    (restart cexState cexRand1).questions = cexState.memoFiltered ∧
    (restart cexState cexRand1).questions
      ≠ select QUESTIONS cexState.difficulty 10 cexRand1 := by
  refine ⟨rfl, by decide, by decide⟩

/-! ### Reachable session states -/

/-- Field-preservation of `handleOption`: a submission never changes the
retained rank or the phase. -/
theorem handleOption_rank_step (s : GameState) (i : Nat) :
    (handleOption s i).rank = s.rank ∧ (handleOption s i).step = s.step := by
  by_cases h : s.selected.isSome
  · simp [handleOption, h]
  · cases hq : s.questions[s.currentIdx]? with
    | none => simp [handleOption, h, hq]
    | some q =>
        by_cases hi : i = q.answerIndex <;> simp [handleOption, h, hq, hi]

/-- The session states reachable through the UI: mount, then the events the
rendered views expose — editing the name and difficulty in setup, starting
with a non-blank name, answering and advancing while playing with a current
question on screen, and restarting from the result view. The leaderboard
content `lb` read at completion is arbitrary (the store is shared,
unvalidated persistence). -/
inductive Reaches : GameState → Prop where
  | init (rand : Nat → Nat) : Reaches (initState rand)
  | setName {s : GameState} (h : Reaches s) (hs : s.step = .setup)
      (n : String) : Reaches { s with playerName := n }
  | setDifficulty {s : GameState} (h : Reaches s) (hs : s.step = .setup)
      (d : Difficulty) (rand : Nat → Nat) :
      Reaches (settle { s with difficulty := d } rand)
  | start {s : GameState} (h : Reaches s) (hs : s.step = .setup)
      (hn : s.playerName.trim ≠ "") : Reaches (handleStart s).1
  | submit {s : GameState} (h : Reaches s) (hs : s.step = .playing)
      (hq : s.currentIdx < s.questions.length) (i : Nat) :
      Reaches (handleOption s i)
  | advance {s : GameState} (h : Reaches s) (hs : s.step = .playing)
      (hq : s.currentIdx < s.questions.length) (lb : List ScoreEntry)
      (now : String) : Reaches (next s lb now).1
  | restartGame {s : GameState} (h : Reaches s) (hs : s.step = .result)
      (rand : Nat → Nat) : Reaches (restart s rand)

/-- C10: in every reachable session state the retained rank is `none`
unless the phase is Result, and when present it is an integer between 1 and
20 inclusive — never 0; entering setup (including via restart) resets it,
and completion stores either a position in the 20-element post-truncation
sequence or `none`. -/
theorem rank_invariant (s : GameState) (h : Reaches s) :
    (s.step ≠ .result → s.rank = none) ∧
    (∀ k, s.rank = some k → 1 ≤ k ∧ k ≤ 20) := by
  induction h with
  | init rand =>
      constructor
      · intro _; simp [initState, settle]
      · intro k hk; simp [initState, settle] at hk
  | @setName t h hs n ih =>
      constructor
      · intro _
        simpa using ih.1 (by simp [hs])
      · intro k hk
        exact ih.2 k (by simpa using hk)
  | @setDifficulty t h hs d rand ih =>
      have hrank : (settle { t with difficulty := d } rand).rank = none := by
        simp [settle, hs]
      exact ⟨fun _ => hrank, fun k hk => by rw [hrank] at hk; cases hk⟩
  | @start t h hs hn ih =>
      have hfst : (handleStart t).1 = { t with step := .playing } := by
        simp [handleStart, hn]
      constructor
      · intro _
        rw [hfst]
        simpa using ih.1 (by simp [hs])
      · intro k hk
        rw [hfst] at hk
        exact ih.2 k (by simpa using hk)
  | @submit t h hs hq i ih =>
      have hp := handleOption_rank_step t i
      constructor
      · intro _
        rw [hp.1]
        exact ih.1 (by simp [hs])
      · intro k hk
        rw [hp.1] at hk
        exact ih.2 k hk
  | @advance t h hs hq lb now ih =>
      by_cases hlt : t.currentIdx + 1 < t.questions.length
      · have hstate : (next t lb now).1 = { t with currentIdx := t.currentIdx + 1, selected := none } := by
          simp [next, hlt]
        constructor
        · intro _
          rw [hstate]
          simpa using ih.1 (by simp [hs])
        · intro k hk
          rw [hstate] at hk
          exact ih.2 k (by simpa using hk)
      · have hstate : (next t lb now).1 = { t with rank := (record lb ⟨t.playerName.trim, t.score, now⟩).2, step := .result } := by
          simp [next, hlt]
        constructor
        · intro hc
          exact absurd (by rw [hstate]) hc
        · intro k hk
          rw [hstate] at hk
          simp only at hk
          exact recordTagged_rank_bound lb _ k hk
  | @restartGame t h hs rand ih =>
      have hrank : (restart t rand).rank = none := by
        simp [restart, settle]
      exact ⟨fun _ => hrank, fun k hk => by rw [hrank] at hk; cases hk⟩

/-- Witness: the invariant holds at the freshly mounted state. -/
theorem rank_invariant_witness :
    ((initState (fun _ => 0)).step ≠ .result →
      (initState (fun _ => 0)).rank = none) ∧
    (∀ k, (initState (fun _ => 0)).rank = some k → 1 ≤ k ∧ k ≤ 20) :=
  rank_invariant (initState (fun _ => 0)) (Reaches.init (fun _ => 0))

end PlayHivWise
